import Mathlib

set_option maxRecDepth 100000

/-
Verification of the podcast-corpus dedup pipeline:
sentence indexing (src/db/create_sentences.py), repetition-run detection
(src/db/create_runs.py) and verified run removal
(src/cleaning/clean_podcasts/remove_seq.py).

Machine integers are modelled as Nat with explicit reduction modulo 2^64
where the sources rely on 64-bit wraparound (the xxHash64 fingerprint).
-/

/-! ### xxHash64

Both `create_sentences.py` and `remove_seq.py` fingerprint a sentence with
`xxhash.xxh64(" ".join(sentence)).hexdigest()` (seed 0, UTF-8 bytes of the
joined string, 16 lowercase hex characters). The XXH64 algorithm is embedded
below over `Nat` with explicit `% 2 ^ 64`. -/

def XXH_PRIME_1 : Nat := 0x9E3779B185EBCA87

def XXH_PRIME_2 : Nat := 0xC2B2AE3D27D4EB4F

def XXH_PRIME_3 : Nat := 0x165667B19E3779F9

def XXH_PRIME_4 : Nat := 0x85EBCA77C2B2AE63

def XXH_PRIME_5 : Nat := 0x27D4EB2F165667C5

/-- Left rotation of a 64-bit value (`x < 2 ^ 64`, `0 < n < 64`). -/
def rotl64 (x n : Nat) : Nat := ((x <<< n) % 2 ^ 64) ||| (x >>> (64 - n))

/-- Little-endian value of a byte list (least significant byte first). -/
def leNat (bs : List Nat) : Nat := bs.foldr (fun b acc => b + 256 * acc) 0

/-- The XXH64 accumulator round. -/
def xxhRound (acc lane : Nat) : Nat :=
  rotl64 ((acc + lane * XXH_PRIME_2) % 2 ^ 64) 31 * XXH_PRIME_1 % 2 ^ 64

/-- The XXH64 merge step folding one stripe accumulator into the digest. -/
def xxhMerge (acc v : Nat) : Nat :=
  ((acc ^^^ xxhRound 0 v) * XXH_PRIME_1 + XXH_PRIME_4) % 2 ^ 64

/-- Consume 32-byte stripes, updating the four accumulators. -/
def xxhStripes : Nat → Nat → Nat → Nat → List Nat →
    Nat × Nat × Nat × Nat × List Nat
  | v1, v2, v3, v4, a0 :: a1 :: a2 :: a3 :: a4 :: a5 :: a6 :: a7 ::
      b0 :: b1 :: b2 :: b3 :: b4 :: b5 :: b6 :: b7 ::
      c0 :: c1 :: c2 :: c3 :: c4 :: c5 :: c6 :: c7 ::
      d0 :: d1 :: d2 :: d3 :: d4 :: d5 :: d6 :: d7 :: rest =>
    xxhStripes
      (xxhRound v1 (leNat [a0, a1, a2, a3, a4, a5, a6, a7]))
      (xxhRound v2 (leNat [b0, b1, b2, b3, b4, b5, b6, b7]))
      (xxhRound v3 (leNat [c0, c1, c2, c3, c4, c5, c6, c7]))
      (xxhRound v4 (leNat [d0, d1, d2, d3, d4, d5, d6, d7]))
      rest
  | v1, v2, v3, v4, bs => (v1, v2, v3, v4, bs)

/-- Consume remaining 8-byte lanes. -/
def xxhTail8 : Nat → List Nat → Nat × List Nat
  | acc, a0 :: a1 :: a2 :: a3 :: a4 :: a5 :: a6 :: a7 :: rest =>
    xxhTail8
      ((rotl64 (acc ^^^ xxhRound 0 (leNat [a0, a1, a2, a3, a4, a5, a6, a7])) 27
        * XXH_PRIME_1 + XXH_PRIME_4) % 2 ^ 64)
      rest
  | acc, bs => (acc, bs)

/-- Consume one remaining 4-byte lane, when present. -/
def xxhTail4 (acc : Nat) (bs : List Nat) : Nat × List Nat :=
  if 4 ≤ bs.length then
    ((rotl64 (acc ^^^ (leNat (bs.take 4) * XXH_PRIME_1 % 2 ^ 64)) 23
      * XXH_PRIME_2 + XXH_PRIME_3) % 2 ^ 64, bs.drop 4)
  else
    (acc, bs)

/-- Consume the remaining single bytes. -/
def xxhTail1 (acc : Nat) (bs : List Nat) : Nat :=
  bs.foldl
    (fun a b => rotl64 (a ^^^ (b * XXH_PRIME_5 % 2 ^ 64)) 11 * XXH_PRIME_1 % 2 ^ 64)
    acc

/-- The XXH64 final avalanche. -/
def xxhAvalanche (acc : Nat) : Nat :=
  let a1 := (acc ^^^ (acc >>> 33)) * XXH_PRIME_2 % 2 ^ 64
  let a2 := (a1 ^^^ (a1 >>> 29)) * XXH_PRIME_3 % 2 ^ 64
  a2 ^^^ (a2 >>> 32)

/-- XXH64 of a byte sequence with the given seed (`seed < 2 ^ 64`). -/
def xxh64 (seed : Nat) (bs : List Nat) : Nat :=
  let n := bs.length
  let start :=
    if 32 ≤ n then
      let v1 := (seed + XXH_PRIME_1 + XXH_PRIME_2) % 2 ^ 64
      let v2 := (seed + XXH_PRIME_2) % 2 ^ 64
      let v3 := seed % 2 ^ 64
      let v4 := (seed + 2 ^ 64 - XXH_PRIME_1) % 2 ^ 64
      let s := xxhStripes v1 v2 v3 v4 bs
      let m := (rotl64 s.1 1 + rotl64 s.2.1 7 + rotl64 s.2.2.1 12
        + rotl64 s.2.2.2.1 18) % 2 ^ 64
      (xxhMerge (xxhMerge (xxhMerge (xxhMerge m s.1) s.2.1) s.2.2.1) s.2.2.2.1,
        s.2.2.2.2)
    else
      ((seed + XXH_PRIME_5) % 2 ^ 64, bs)
  let acc1 := (start.1 + n) % 2 ^ 64
  let t8 := xxhTail8 acc1 start.2
  let t4 := xxhTail4 t8.1 t8.2
  xxhAvalanche (xxhTail1 t4.1 t4.2)

/-- UTF-8 encoding of one character. -/
def utf8EncodeChar (c : Char) : List Nat :=
  let n := c.toNat
  if n < 0x80 then [n]
  else if n < 0x800 then [0xC0 + (n >>> 6), 0x80 + n % 64]
  else if n < 0x10000 then
    [0xE0 + (n >>> 12), 0x80 + (n >>> 6) % 64, 0x80 + n % 64]
  else
    [0xF0 + (n >>> 18), 0x80 + (n >>> 12) % 64, 0x80 + (n >>> 6) % 64,
      0x80 + n % 64]

/-- UTF-8 byte sequence of a string (Python hashes `str` as UTF-8). -/
def utf8Bytes (s : String) : List Nat := (s.data.map utf8EncodeChar).flatten

/-- Lowercase hex digit for a value `< 16`. -/
def hexDigitChar (n : Nat) : Char :=
  if n < 10 then Char.ofNat (48 + n) else Char.ofNat (87 + n)

/-- 16-character zero-padded lowercase hex rendering of a 64-bit value,
as produced by `hexdigest()`. -/
def toHex16 (v : Nat) : String :=
  String.mk ((List.range 16).map (fun i => hexDigitChar (v / 16 ^ (15 - i) % 16)))

/-- `xxhash.xxh64(s).hexdigest()` for a Python string `s` (default seed 0). -/
def xxh64Hex (s : String) : String := toHex16 (xxh64 0 (utf8Bytes s))

/-! ### Shared constants and the sentence fingerprint -/

/-- `STOP_SENTINEL` in remove_seq.py and the default `stop_token` of
`populate_db`: the in-band boundary marker separating transcript lines. -/
def STOP_SENTINEL : List String := ["i", "love", "blueberry", "waffles"]

/-- `hash_sentence` from src/db/create_sentences.py:
`xxhash.xxh64(" ".join(sentence)).hexdigest()`. -/
def hash_sentence (sentence : List String) : String :=
  xxh64Hex (String.intercalate " " sentence)

/-- `hash_sentence` from src/cleaning/clean_podcasts/remove_seq.py
(text-identical to the indexer's copy). -/
def removeSeq_hash_sentence (sentence : List String) : String :=
  xxh64Hex (String.intercalate " " sentence)

/-- ASCII lowercasing, character by character. -/
def lowercaseStr (t : String) : String := String.mk (t.data.map Char.toLower)

/-- The fingerprint the spec describes: hash of the sentence's *lowercased*
tokens joined by a single space. Follows the spec's words, for comparison with
`hash_sentence` as implemented (which does not lowercase). -/
def specLowercasedHash (sentence : List String) : String :=
  xxh64Hex (String.intercalate " " (sentence.map lowercaseStr))

/-! ### Sentence indexer (src/db/create_sentences.py) -/

/-- One sentence-store row `(hash, file_num, line_num, sent_num, sent_offset)`.
-/
abbrev SentRow := String × Nat × Nat × Nat × Nat

/-- `glove_output_length`: `len(" ".join(sentence)) + 1`. -/
def glove_output_length (sentence : List String) : Nat :=
  (String.intercalate " " sentence).length + 1

/-- The per-sentence loop of `populate_db` (create_sentences.py lines 74-96):
walk one file's sentence list carrying `(line_idx, sent_idx, offset)`. A
sentence equal to the stop token increments `line_idx` and resets the other
counters without emitting; an empty sentence is skipped without advancing;
any other sentence emits one row and advances `sent_idx` and `offset`. -/
def fileRows (fileIdx : Nat) :
    List (List String) → Nat → Nat → Nat → List SentRow
  | [], _, _, _ => []
  | sentence :: rest, lineIdx, sentIdx, offset =>
    if sentence = STOP_SENTINEL then
      fileRows fileIdx rest (lineIdx + 1) 0 0
    else if sentence = [] then
      fileRows fileIdx rest lineIdx sentIdx offset
    else
      (hash_sentence sentence, fileIdx, lineIdx, sentIdx, offset)
        :: fileRows fileIdx rest lineIdx (sentIdx + 1)
          (offset + glove_output_length sentence)

/-- Coordinate the indexer's walk assigns to each element of a document:
`none` for boundary markers and for empty sentences (both emit nothing, and
empties do not advance `sent_idx`), `some (line_num, sent_num)` otherwise. -/
def indexerCoords : List (List String) → Nat → Nat → List (Option (Nat × Nat))
  | [], _, _ => []
  | sentence :: rest, lineIdx, sentIdx =>
    if sentence = STOP_SENTINEL then
      none :: indexerCoords rest (lineIdx + 1) 0
    else if sentence = [] then
      none :: indexerCoords rest lineIdx sentIdx
    else
      some (lineIdx, sentIdx) :: indexerCoords rest lineIdx (sentIdx + 1)

/-- Coordinate the remover's walk (remove_seq.py lines 87-120) assigns to each
element when no run matches: `none` for the sentinel, `some (line, sent)` for
every other element — the remover has no empty-sentence check, so an empty
sentence receives a coordinate and advances `sent_num`. -/
def removerCoords : List (List String) → Nat → Nat → List (Option (Nat × Nat))
  | [], _, _ => []
  | sentence :: rest, lineNum, sentNum =>
    if sentence = STOP_SENTINEL then
      none :: removerCoords rest (lineNum + 1) 0
    else
      some (lineNum, sentNum) :: removerCoords rest lineNum (sentNum + 1)

/-! ### The sentence store and `populate_db`'s batched writes -/

/-- Unique key of a sentence row: `(file_num, line_num, sent_num)`. -/
def sentKey (r : SentRow) : Nat × Nat × Nat := (r.2.1, r.2.2.1, r.2.2.2.1)

/-- A plain `INSERT` of `batch` raises a unique-key violation iff some row's
key is already present in the store or the batch repeats a key internally. -/
def insertConflict (store batch : List SentRow) : Bool :=
  batch.any (fun r => (store.map sentKey).contains (sentKey r))
    || !decide (batch.map sentKey).Nodup

/-- One flush (`cursor.executemany` of the plain `INSERT` statement plus
`commit`, create_sentences.py lines 45-48 and 98-122): a unique-key violation
— or an external database error, modelled by an oracle on the flush counter —
fails the whole batch; the handler rolls back, leaving the store unchanged,
and the batch is dropped without retry. -/
def flushAttempt (oracle : Nat → Bool) (k : Nat) (store batch : List SentRow) :
    List SentRow :=
  if oracle k || insertConflict store batch then store else store ++ batch

/-- Buffer step of `populate_db`: append the row and flush once the buffer
reaches `batchSize` (`BATCH_SIZE = 1000` in the source); the buffer is cleared
whether the flush succeeded or failed. State: (store, buffer, flush counter).
-/
def bufferStep (batchSize : Nat) (oracle : Nat → Bool)
    (st : List SentRow × List SentRow × Nat) (r : SentRow) :
    List SentRow × List SentRow × Nat :=
  let buf := st.2.1 ++ [r]
  if batchSize ≤ buf.length then
    (flushAttempt oracle st.2.2 st.1 buf, [], st.2.2 + 1)
  else
    (st.1, buf, st.2.2)

/-- `populate_db` over already parsed files `(file_idx, data)`: one buffer
persists across files, and a final non-empty partial batch is flushed after
the file loop. -/
def populate_db (batchSize : Nat) (oracle : Nat → Bool)
    (files : List (Nat × List (List String))) (store : List SentRow) :
    List SentRow :=
  let st := files.foldl
    (fun acc f => (fileRows f.1 f.2 0 0 0).foldl (bufferStep batchSize oracle) acc)
    (store, ([] : List SentRow), 0)
  if st.2.1 = [] then st.1 else flushAttempt oracle st.2.2 st.1 st.2.1

/-- The row stream split into flush batches: full chunks of `batchSize`
followed by a final partial chunk. -/
def chunkify (batchSize : Nat) (rows : List SentRow) : List (List SentRow) :=
  if _h : batchSize ≤ rows.length ∧ 0 < batchSize then
    rows.take batchSize :: chunkify batchSize (rows.drop batchSize)
  else if rows = [] then [] else [rows]
termination_by rows.length
decreasing_by simp [List.length_drop]; omega

/-- Reference flush sequence: every batch is attempted exactly once, in order;
a failed batch leaves the store unchanged and processing continues with the
next batch. -/
def applyChunks (oracle : Nat → Bool) :
    List SentRow → List (List SentRow) → Nat → List SentRow
  | store, [], _ => store
  | store, c :: cs, k => applyChunks oracle (flushAttempt oracle k store c) cs (k + 1)

/-- Follows the spec's words, for comparison with `flushAttempt` (refinement
target, not source code): "insert-or-ignore semantics on the uniqueness
constraint" — each row inserted individually, silently skipped when its unique
key is already present. -/
def sentencesInsertOrIgnore (store batch : List SentRow) : List SentRow :=
  batch.foldl
    (fun st r => if (st.map sentKey).contains (sentKey r) then st else st ++ [r])
    store

/-! ### Run detector (src/db/create_runs.py) -/

/-- One occurrence `(file_num, line_num, sent_num)` as streamed by the
detector's per-hash ordered query. -/
abbrev Occ := Nat × Nat × Nat

/-- One repetition-run row `(hash, file_num, line_num, sent_num, run_length)`.
-/
abbrev RunRow := String × Nat × Nat × Nat × Nat

/-- Contiguity test of `main_loop_streamed` (create_runs.py lines 120-124):
the current row extends the open run iff it shares file and line with the
previous row and its sentence number is the previous one plus one. -/
def contig (prev row : Occ) : Prop :=
  row.1 = prev.1 ∧ row.2.1 = prev.2.1 ∧ row.2.2 = prev.2.2 + 1

instance (prev row : Occ) : Decidable (contig prev row) := by
  unfold contig; infer_instance

/-- The unique occurrence that would extend a run ending at `o`. -/
def succOcc (o : Occ) : Occ := (o.1, o.2.1, o.2.2 + 1)

/-- `insert_run_occurrence_batch`: a closed run becomes
`(file_num, line_num, sent_num, run_length)` from its first occurrence and its
length. The source indexes `run[0]`, so the default of `headD` is reached only
on an empty run, where the source would raise. -/
def mkRun (run : List Occ) : Nat × Nat × Nat × Nat :=
  ((run.headD (0, 0, 0)).1, (run.headD (0, 0, 0)).2.1,
    (run.headD (0, 0, 0)).2.2, run.length)

/-- The streamed contiguity scan (create_runs.py lines 118-135): `prev` is the
last processed row and `run` the open run, whose last element is always
`prev`. A non-extending row closes the open run, emitting it when its length
reaches the threshold, and opens a new run at the current row; the final open
run is closed and evaluated the same way at end of stream. -/
def scanAux (threshold : Nat) :
    List Occ → Occ → List Occ → List (Nat × Nat × Nat × Nat)
  | [], _, run => if threshold ≤ run.length then [mkRun run] else []
  | row :: rest, prev, run =>
    if contig prev row then
      scanAux threshold rest row (run ++ [row])
    else
      (if threshold ≤ run.length then [mkRun run] else [])
        ++ scanAux threshold rest row [row]

/-- Per-hash run detection over the ordered occurrence stream. With
`prev = None` the source's first iteration always takes the non-extending
branch, emits nothing (the initial `run` is empty, and a threshold of 0 would
crash the source on `run[0]`), and opens the run at the first row. -/
def detectRuns (threshold : Nat) : List Occ → List (Nat × Nat × Nat × Nat)
  | [] => []
  | row :: rest => scanAux threshold rest row [row]

/-- Contiguity blocks of a stream: the open block grows exactly when the scan
would extend its run, so the blocks are the maximal contiguous groups. -/
def chunksAux : List Occ → Occ → List Occ → List (List Occ)
  | [], _, cur => [cur]
  | row :: rest, prev, cur =>
    if contig prev row then chunksAux rest row (cur ++ [row])
    else cur :: chunksAux rest row [row]

/-- The contiguity partition of an occurrence stream. -/
def chunks : List Occ → List (List Occ)
  | [] => []
  | row :: rest => chunksAux rest row [row]

/-- The maximal contiguous runs of length at least `threshold`: the contiguity
blocks filtered by length, rendered as `(file, line, start_sent, length)`. -/
def maximalRuns (threshold : Nat) (occs : List Occ) :
    List (Nat × Nat × Nat × Nat) :=
  ((chunks occs).filter (fun c => threshold ≤ c.length)).map mkRun

/-- The arithmetic block of `len` occurrences `(f, l, s) … (f, l, s+len-1)`. -/
def blockFrom (f l : Nat) : Nat → Nat → List Occ
  | _, 0 => []
  | s, Nat.succ len => (f, l, s) :: blockFrom f l (s + 1) len

/-- Strict lexicographic order on occurrences: the order of the detector's
`ORDER BY file_num, line_num, sent_num` stream (strict, because coordinates
are unique in the store). -/
def occLt (a b : Occ) : Prop :=
  a.1 < b.1 ∨ (a.1 = b.1 ∧ (a.2.1 < b.2.1 ∨ (a.2.1 = b.2.1 ∧ a.2.2 < b.2.2)))

instance (a b : Occ) : Decidable (occLt a b) := by
  unfold occLt; infer_instance

/-- Insert into a lexicographically sorted occurrence list. -/
def insertOcc (x : Occ) : List Occ → List Occ
  | [] => [x]
  | y :: ys => if occLt x y ∨ x = y then x :: y :: ys else y :: insertOcc x ys

/-- Sort an occurrence list by `(file_num, line_num, sent_num)`. -/
def sortOccs (l : List Occ) : List Occ := l.foldr insertOcc []

/-- First-occurrence deduplication with an accumulator of seen values. -/
def dedupFirstAux (seen : List String) : List String → List String
  | [] => []
  | h :: t =>
    if seen.contains h then dedupFirstAux seen t
    else h :: dedupFirstAux (seen ++ [h]) t

/-- The candidate query `SELECT hash FROM sentences GROUP BY hash HAVING
COUNT(*) >= threshold`: distinct hashes with enough occurrences (the store
chooses the group order; first-appearance order here). -/
def candidateHashes (rows : List SentRow) (threshold : Nat) : List String :=
  (dedupFirstAux [] (rows.map (fun r => r.1))).filter
    (fun h => decide (threshold ≤ (rows.filter (fun r => r.1 == h)).length))

/-- The per-hash occurrence stream: `SELECT file_num, line_num, sent_num FROM
sentences WHERE hash = h ORDER BY file_num, line_num, sent_num`. -/
def occsOfHash (rows : List SentRow) (h : String) : List Occ :=
  sortOccs ((rows.filter (fun r => r.1 == h)).map
    (fun r => (r.2.1, r.2.2.1, r.2.2.2.1)))

/-- `main_loop_streamed` restricted to its emitted rows: for each candidate
hash, scan its ordered stream and collect the emitted runs
`(hash, file_num, line_num, sent_num, run_length)` in batch order. -/
def main_loop_streamed (rows : List SentRow) (threshold : Nat) : List RunRow :=
  ((candidateHashes rows threshold).map
    (fun h => (detectRuns threshold (occsOfHash rows h)).map
      (fun r => (h, r.1, r.2.1, r.2.2.1, r.2.2.2)))).flatten

/-- Unique key of a repetition-run row: `(file_num, line_num, sent_num)`. -/
def runKey (r : RunRow) : Nat × Nat × Nat := (r.2.1, r.2.2.1, r.2.2.2.1)

/-- `flush_batch` (create_runs.py lines 69-82): `INSERT … ON CONFLICT DO
NOTHING` — each row of the batch is inserted unless its unique
`(file_num, line_num, sent_num)` key is already present, in which case that
row alone is silently skipped. -/
def flush_batch (store batch : List RunRow) : List RunRow :=
  batch.foldl
    (fun st r => if (st.map runKey).contains (runKey r) then st else st ++ [r])
    store

/-! ### Run remover (src/cleaning/clean_podcasts/remove_seq.py) -/

/-- The `run_map` lookup. -/
abbrev RunMap := Nat × Nat → Option (String × Nat)

/-- `run_map` built from the rows `(hash, line_num, sent_num, run_length)`
fetched for one file, keyed on `(line_num, sent_num)`; with duplicate keys the
later row wins, as in the source's dict comprehension (the store's unique key
makes duplicates impossible in practice, which also makes the query's
`ORDER BY` irrelevant to the resulting map). -/
def run_map_of (runs : List (String × Nat × Nat × Nat)) : RunMap :=
  runs.foldl
    (fun m r => fun k =>
      if k = (r.2.1, r.2.2.1) then some (r.1, r.2.2.2) else m k)
    (fun _ => none)

/-- The document walk of remove_seq.py (lines 87-120), on explicit fuel.
Every iteration consumes at least one element whenever each matched
`run_length` is positive, so `length + 1` fuel always suffices; a matched
`run_length` of 0 would loop forever in the source and is mapped to `none`,
as is fuel exhaustion. The sentinel is copied through, incrementing
`line_num` and resetting `sent_num`. On a matched run the source first breaks
out of the document — discarding the whole rest of the output — when the run
reaches past the end of the list; otherwise it recomputes the slice hashes,
but uses the result only in log messages: the slice is skipped (removed from
the output) whether or not the hashes match. -/
def removeWalkFuel (runMap : RunMap) :
    Nat → List (List String) → Nat → Nat → Option (List (List String))
  | 0, _, _, _ => none
  | _ + 1, [], _, _ => some []
  | fuel + 1, sentence :: rest, lineNum, sentNum =>
    if sentence = STOP_SENTINEL then
      (removeWalkFuel runMap fuel rest (lineNum + 1) 0).map (sentence :: ·)
    else
      match runMap (lineNum, sentNum) with
      | some (expectedHash, runLength) =>
        if rest.length + 1 < runLength then some []
        else if runLength = 0 then none
        else
          let _all_match :=
            ((sentence :: rest).take runLength).all
              (fun s => removeSeq_hash_sentence s == expectedHash)
          removeWalkFuel runMap fuel (rest.drop (runLength - 1)) lineNum
            (sentNum + runLength)
      | none =>
        (removeWalkFuel runMap fuel rest lineNum (sentNum + 1)).map
          (sentence :: ·)

/-- The remover's walk with adequate fuel. -/
def removeWalk (runMap : RunMap) (doc : List (List String))
    (lineNum sentNum : Nat) : Option (List (List String)) :=
  removeWalkFuel runMap (doc.length + 1) doc lineNum sentNum

/-- Safety condition for marker preservation, following the walk: every
matched run has positive length, fits inside the remaining document, and its
skipped slice contains no boundary marker. -/
def markerSafeFuel (runMap : RunMap) :
    Nat → List (List String) → Nat → Nat → Bool
  | 0, _, _, _ => false
  | _ + 1, [], _, _ => true
  | fuel + 1, sentence :: rest, lineNum, sentNum =>
    if sentence = STOP_SENTINEL then
      markerSafeFuel runMap fuel rest (lineNum + 1) 0
    else
      match runMap (lineNum, sentNum) with
      | some (_, runLength) =>
        if rest.length + 1 < runLength then false
        else if runLength = 0 then false
        else
          !(((sentence :: rest).take runLength).contains STOP_SENTINEL)
            && markerSafeFuel runMap fuel (rest.drop (runLength - 1)) lineNum
              (sentNum + runLength)
      | none => markerSafeFuel runMap fuel rest lineNum (sentNum + 1)

/-- `markerSafeFuel` with adequate fuel, from the walk's initial state. -/
def markerSafe (runMap : RunMap) (doc : List (List String)) : Bool :=
  markerSafeFuel runMap (doc.length + 1) doc 0 0

/-- The per-file remover: keep this file's runs meeting the removal threshold
(`WHERE file_num = %s AND run_length >= %s`), build `run_map`, and walk the
document from `(line_num, sent_num) = (0, 0)`. -/
def remove_seq (runStore : List RunRow) (threshold fileIdx : Nat)
    (doc : List (List String)) : Option (List (List String)) :=
  let runs := (runStore.filter
      (fun r => r.2.1 == fileIdx && decide (threshold ≤ r.2.2.2.2))).map
    (fun r => (r.1, r.2.2.1, r.2.2.2.1, r.2.2.2.2))
  removeWalk (run_map_of runs) doc 0 0

/-! ### Concrete instances used in the theorems -/

/-- C1 failing input: the indexed run `[b, b, b]` at (line 0, sentences 1-3)
has drifted to `[b, x, b]` in the re-read document. -/
def c1doc : List (List String) := [["a"], ["b"], ["x"], ["b"], ["c"]]

/-- The stale run for `c1doc`: start (0, 1), length 3, expected hash of `b`. -/
def c1map : RunMap := run_map_of [(hash_sentence ["b"], 0, 1, 3)]

/-- C2 counterexample document: a boundary marker sits inside the slice of a
recorded run starting at (0, 0) with length 2. -/
def c2doc : List (List String) := [["b"], STOP_SENTINEL, ["c"]]

/-- The recorded run for `c2doc`. -/
def c2map : RunMap := run_map_of [(hash_sentence ["b"], 0, 0, 2)]

/-- C2 witness document: a genuinely removable run `[b, b]` next to a marker.
-/
def c2okdoc : List (List String) := [["a"], ["b"], ["b"], STOP_SENTINEL, ["c"]]

/-- The recorded run for `c2okdoc`: start (0, 1), length 2. -/
def c2okmap : RunMap := run_map_of [(hash_sentence ["b"], 0, 1, 2)]

/-- C4 store: the key (0, 0, 0) is already present. -/
def c4store : List SentRow := [("h", 0, 0, 0, 0)]

/-- C4 batch: the present key plus one new row. -/
def c4batch : List SentRow := [("h", 0, 0, 0, 0), ("g", 0, 0, 1, 0)]

/-- C7 concrete store. -/
def c7store : List RunRow := [("h", 0, 0, 0, 4)]

/-- C7 concrete batch: one row whose key is present, one new row. -/
def c7batch : List RunRow := [("h", 0, 0, 0, 4), ("g", 0, 1, 0, 5)]

/-- C8 document: `[a, b, b, b, b, c]` on a single line of file 0. -/
def doc8 : List (List String) := [["a"], ["b"], ["b"], ["b"], ["b"], ["c"]]

/-- C6 witness stream: a contiguous 3-run and one separate occurrence. -/
def c6occs : List Occ := [(0, 0, 0), (0, 0, 1), (0, 0, 2), (0, 1, 5)]

/-- C10 lookup: a run of length 5 recorded at (0, 0). -/
def c10map : RunMap := run_map_of [("h", 0, 0, 5)]

/-! ### Sanity of the xxHash64 embedding (published reference digests) -/

example : xxh64Hex "" = "ef46db3751d8e999" := by decide

example : xxh64Hex "a" = "d24ec4f1a98c6e5b" := by decide

example : xxh64Hex "b b" = "e1f5a72db5d38f52" := by decide

example : xxh64Hex "abcdefghijklmnopqrstuvwxyz0123456789abcdefgh"
    = "e70ef1b401cddc93" := by decide

/-! ### C1: the fail-safe on hash mismatch -/

/-- C1 (code bug): the fail-safe does not hold in the code. On `c1doc` the run
recorded at (0, 1) covers the slice `[b, x, b]`, whose middle sentence
fingerprints differently from the expected hash of `b`; the remover
nevertheless elides the whole slice — the source advances the cursor by
`run_length` outside the hash check, which only selects a log message — and
produces `[[a], [c]]` instead of leaving the run untouched. -/
theorem remover_elides_mismatched_run :
    removeSeq_hash_sentence ["x"] ≠ hash_sentence ["b"]
      ∧ removeWalk c1map c1doc 0 0 = some [["a"], ["c"]] := by decide

/-! ### C2: boundary-marker preservation -/

/-- C2 counterexample: a marker inside a skipped slice is dropped. On `c2doc`
the run at (0, 0) has length 2, so the slice `[[b], marker]` is skipped (its
hash mismatch only logs) and the output `[[c]]` has lost the marker. -/
theorem boundary_marker_lost :
    removeWalk c2map c2doc 0 0 = some [["c"]]
      ∧ ([["c"]] : List (List String)).count STOP_SENTINEL
          ≠ c2doc.count STOP_SENTINEL := by decide

/-! ### C3: coordinate agreement of the two walks -/

/-- C3 counterexample: the walks do not handle empty sentences identically.
On `[[], [a]]` the indexer skips the empty sentence without advancing,
assigning `[a]` the coordinate (0, 0); the remover has no empty-sentence
check, so it assigns the empty sentence (0, 0) and `[a]` (0, 1). -/
theorem coords_disagree_on_empty_sentence :
    indexerCoords [[], ["a"]] 0 0 = [none, some (0, 0)]
      ∧ removerCoords [[], ["a"]] 0 0 = [some (0, 0), some (0, 1)]
      ∧ indexerCoords [[], ["a"]] 0 0 ≠ removerCoords [[], ["a"]] 0 0 := by
  decide

/-- The two walks agree from any common state on documents without empty
sentences. -/
theorem coordsAgreeAux (doc : List (List String)) :
    ∀ lineNum sentNum : Nat, (∀ s ∈ doc, s ≠ ([] : List String)) →
      removerCoords doc lineNum sentNum = indexerCoords doc lineNum sentNum := by
  induction doc with
  | nil => intro _ _ _; rfl
  | cons s rest ih =>
    intro lineNum sentNum hne
    have hs : s ≠ ([] : List String) := hne s (List.mem_cons_self s rest)
    have hrest : ∀ t ∈ rest, t ≠ ([] : List String) :=
      fun t ht => hne t (List.mem_cons_of_mem s ht)
    by_cases hstop : s = STOP_SENTINEL
    · simp [removerCoords, indexerCoords, hstop, ih _ _ hrest]
    · simp [removerCoords, indexerCoords, hstop, hs, ih _ _ hrest]

/-- C3 amended: on documents with no empty token lists, the coordinate the
remover's walk assigns to each position equals the coordinate the indexer's
walk assigns: both increment `line_num` and reset `sent_num` on a boundary
marker. (Empty sentences are the sole divergence: the indexer skips them
without advancing `sent_num`, the remover gives them a coordinate.) -/
theorem coords_agree_without_empty_sentences (doc : List (List String))
    (hne : ∀ s ∈ doc, s ≠ ([] : List String)) :
    removerCoords doc 0 0 = indexerCoords doc 0 0 :=
  coordsAgreeAux doc 0 0 hne

/-- Witness for C3's amended theorem on a concrete document with a marker. -/
theorem coords_agree_witness :
    (∀ s ∈ [["a"], STOP_SENTINEL, ["b"]], s ≠ ([] : List String))
      ∧ removerCoords [["a"], STOP_SENTINEL, ["b"]] 0 0
        = indexerCoords [["a"], STOP_SENTINEL, ["b"]] 0 0 :=
  ⟨by decide, coords_agree_without_empty_sentences _ (by decide)⟩

/-! ### C4: indexer flush semantics -/

/-- C4 counterexample: the indexer's flush is not insert-or-ignore. With the
key (0, 0, 0) already stored, flushing a batch holding that key plus a new row
drops the whole batch — the plain `INSERT` hits the uniqueness constraint and
is rolled back — while insert-or-ignore would keep the new row. -/
theorem indexer_flush_not_insert_or_ignore :
    flushAttempt (fun _ => false) 0 c4store c4batch = c4store
      ∧ sentencesInsertOrIgnore c4store c4batch = c4store ++ [("g", 0, 0, 1, 0)]
      ∧ flushAttempt (fun _ => false) 0 c4store c4batch
          ≠ sentencesInsertOrIgnore c4store c4batch :=
  ⟨by decide, by decide, by decide⟩

/-! ### C5: the content hash -/

/-- C5 counterexample: `hash_sentence` does not lowercase. On the sentence
`["A"]` it fingerprints the string `"A"`, which differs from the fingerprint
of the lowercased join prescribed by the spec (the hash of `"a"`). -/
theorem hash_is_not_lowercased :
    hash_sentence ["A"] ≠ specLowercasedHash ["A"]
      ∧ specLowercasedHash ["A"] = hash_sentence ["a"] :=
  ⟨by decide, by decide⟩

/-- A right shift never increases a natural number. -/
theorem shiftRight_le_self (x n : Nat) : x >>> n ≤ x := by
  rw [Nat.shiftRight_eq_div_pow]
  exact Nat.div_le_self _ _

/-- Xoring a 64-bit value with its own right shift stays below `2 ^ 64`. -/
theorem xor_shift_lt (x n : Nat) (hx : x < 2 ^ 64) : x ^^^ x >>> n < 2 ^ 64 :=
  Nat.xor_lt_two_pow hx (Nat.lt_of_le_of_lt (shiftRight_le_self x n) hx)

/-- The XXH64 avalanche output is a 64-bit value. -/
theorem xxhAvalanche_lt (acc : Nat) : xxhAvalanche acc < 2 ^ 64 := by
  unfold xxhAvalanche
  exact xor_shift_lt _ _ (Nat.mod_lt _ (by norm_num))

/-- Every XXH64 digest value is below `2 ^ 64`. -/
theorem xxh64_lt (seed : Nat) (bs : List Nat) : xxh64 seed bs < 2 ^ 64 := by
  unfold xxh64
  exact xxhAvalanche_lt _

/-- A 16-hex-digit rendering always has 16 characters. -/
theorem toHex16_length (v : Nat) : (toHex16 v).length = 16 := by
  simp [toHex16, String.length]

/-- C5 amended: the content hash is a deterministic 64-bit fingerprint of the
sentence's tokens *as given* — the document format guarantees lowercase
tokens, and the code performs no lowercasing itself — joined by a single
space; the indexer and the remover define `hash_sentence` identically, so
equal token lists always yield equal hashes across the two processes; the
digest renders a value below `2 ^ 64` as exactly 16 hex characters. -/
theorem hash_deterministic_64bit_same_function :
    (∀ s : List String, hash_sentence s = removeSeq_hash_sentence s)
      ∧ (∀ s : List String,
          hash_sentence s = toHex16 (xxh64 0 (utf8Bytes (String.intercalate " " s))))
      ∧ (∀ bs : List Nat, xxh64 0 bs < 2 ^ 64)
      ∧ (∀ s : List String, (hash_sentence s).length = 16) :=
  ⟨fun _ => rfl, fun _ => rfl, fun bs => xxh64_lt 0 bs,
    fun _ => toHex16_length _⟩

/-! ### C8: the concrete end-to-end scenario -/

/-- C8. Indexing `[a, b, b, b, b, c]` as file 0, running the detector with
threshold 3 emits exactly the run (hash(b), file 0, line 0, start_sent 1,
length 4), and the remover with removal threshold 3 turns the line into
`[a, c]`. -/
theorem concrete_scenario_end_to_end :
    main_loop_streamed (fileRows 0 doc8 0 0 0) 3
        = [(hash_sentence ["b"], 0, 0, 1, 4)]
      ∧ remove_seq (main_loop_streamed (fileRows 0 doc8 0 0 0) 3) 3 0 doc8
        = some [["a"], ["c"]] := by decide

/-! ### C10: a run reaching past the end of the document -/

/-- C10. When the walk matches a run start whose length reaches past the end
of the remaining document, the source breaks out of its loop: nothing of the
remaining document — sentences and boundary markers alike — is emitted. -/
theorem run_overflow_truncates_output (runMap : RunMap)
    (sentence : List String) (rest : List (List String))
    (lineNum sentNum : Nat) (expectedHash : String) (runLength : Nat)
    (hs : sentence ≠ STOP_SENTINEL)
    (hm : runMap (lineNum, sentNum) = some (expectedHash, runLength))
    (hov : rest.length + 1 < runLength) :
    removeWalk runMap (sentence :: rest) lineNum sentNum = some [] := by
  unfold removeWalk removeWalkFuel
  simp [hs, hm, hov]

/-- Witness for C10 at a concrete state: the recorded length 5 exceeds the two
remaining elements, and the walk discards even the trailing marker. -/
theorem run_overflow_truncates_output_witness :
    (["b"] ≠ STOP_SENTINEL)
      ∧ c10map (0, 0) = some ("h", 5)
      ∧ ([STOP_SENTINEL] : List (List String)).length + 1 < 5
      ∧ removeWalk c10map [["b"], STOP_SENTINEL] 0 0 = some [] :=
  ⟨by decide, by decide, by decide,
    run_overflow_truncates_output c10map ["b"] [STOP_SENTINEL] 0 0 "h" 5
      (by decide) (by decide) (by decide)⟩

/-! ### C7: idempotent run persistence -/

/-- `flush_batch` on a cons steps the store once and continues. -/
theorem flush_batch_cons (store : List RunRow) (b : RunRow) (bs : List RunRow) :
    flush_batch store (b :: bs)
      = flush_batch
          (if (store.map runKey).contains (runKey b) then store else store ++ [b])
          bs := rfl

/-- Keys already present survive a flush. -/
theorem flush_batch_keys_mono (batch : List RunRow) :
    ∀ (store : List RunRow) (k : Nat × Nat × Nat),
      k ∈ store.map runKey → k ∈ (flush_batch store batch).map runKey := by
  induction batch with
  | nil => intro _ _ hk; exact hk
  | cons b bs ih =>
    intro store k hk
    rw [flush_batch_cons]
    by_cases hc : (store.map runKey).contains (runKey b)
    · rw [if_pos hc]; exact ih store k hk
    · rw [if_neg hc]
      exact ih _ k (by rw [List.map_append]; exact List.mem_append_left _ hk)

/-- After a flush, every key of the batch is present in the store. -/
theorem flush_batch_keys_covered (batch : List RunRow) :
    ∀ (store : List RunRow) (r : RunRow), r ∈ batch →
      runKey r ∈ (flush_batch store batch).map runKey := by
  induction batch with
  | nil => intro _ r hr; cases hr
  | cons b bs ih =>
    intro store r hr
    rw [flush_batch_cons]
    rcases List.mem_cons.mp hr with hrb | hrbs
    · subst hrb
      by_cases hc : (store.map runKey).contains (runKey r)
      · rw [if_pos hc]
        exact flush_batch_keys_mono bs store (runKey r) (List.elem_iff.mp hc)
      · rw [if_neg hc]
        exact flush_batch_keys_mono bs _ (runKey r)
          (by rw [List.map_append]; exact List.mem_append_right _ (by simp))
    · exact ih _ r hrbs

/-- A flush whose rows' keys are all already present is a no-op. -/
theorem flush_batch_noop (batch : List RunRow) :
    ∀ store : List RunRow, (∀ r ∈ batch, runKey r ∈ store.map runKey) →
      flush_batch store batch = store := by
  induction batch with
  | nil => intro _ _; rfl
  | cons b bs ih =>
    intro store h
    rw [flush_batch_cons,
      if_pos (List.elem_iff.mpr (h b (List.mem_cons_self b bs)))]
    exact ih store (fun r hr => h r (List.mem_cons_of_mem b hr))

/-- Flushing preserves key uniqueness. -/
theorem flush_batch_nodup (batch : List RunRow) :
    ∀ store : List RunRow, (store.map runKey).Nodup →
      ((flush_batch store batch).map runKey).Nodup := by
  induction batch with
  | nil => intro _ h; exact h
  | cons b bs ih =>
    intro store h
    rw [flush_batch_cons]
    by_cases hc : (store.map runKey).contains (runKey b)
    · rw [if_pos hc]; exact ih store h
    · rw [if_neg hc]
      refine ih _ ?_
      rw [List.map_append]
      have hnm : runKey b ∉ store.map runKey := fun hm => hc (List.elem_iff.mpr hm)
      simp [List.nodup_append, h, hnm]

/-- C7. Run persistence is insert-or-ignore on the unique
(file_num, line_num, sent_num) key: re-flushing a batch into the store it
already produced is a no-op — the detector recomputes the same rows from an
unchanged index, so a re-run leaves the run set unchanged — and flushing never
introduces duplicate keys. -/
theorem run_store_flush_idempotent (store batch : List RunRow)
    (hnd : (store.map runKey).Nodup) :
    flush_batch (flush_batch store batch) batch = flush_batch store batch
      ∧ ((flush_batch store batch).map runKey).Nodup :=
  ⟨flush_batch_noop batch _ (fun r hr => flush_batch_keys_covered batch store r hr),
    flush_batch_nodup batch store hnd⟩

/-- Witness for C7 on a concrete store and batch. -/
theorem run_store_flush_idempotent_witness :
    flush_batch (flush_batch c7store c7batch) c7batch = flush_batch c7store c7batch
      ∧ ((flush_batch c7store c7batch).map runKey).Nodup :=
  run_store_flush_idempotent c7store c7batch (by decide)

/-! ### C9: batched writes and flush failures -/

/-- The nested per-file fold of `populate_db` equals one fold over the
concatenated row stream. -/
theorem populate_foldl_files (batchSize : Nat) (oracle : Nat → Bool)
    (files : List (Nat × List (List String))) :
    ∀ acc : List SentRow × List SentRow × Nat,
      files.foldl
          (fun a f => (fileRows f.1 f.2 0 0 0).foldl (bufferStep batchSize oracle) a)
          acc
        = ((files.map (fun f => fileRows f.1 f.2 0 0 0)).flatten).foldl
            (bufferStep batchSize oracle) acc := by
  induction files with
  | nil => intro _; rfl
  | cons f fs ih => intro acc; simp [List.foldl_append, ih]

/-- Buffer mechanics refine the batch sequence: folding the row stream through
the buffer and flushing the final partial batch equals attempting each
`chunkify` batch exactly once in order. -/
theorem bufferFold_eq_applyChunks (batchSize : Nat) (oracle : Nat → Bool)
    (hb : 1 ≤ batchSize) :
    ∀ (rows store buf : List SentRow) (k : Nat),
      buf.length < batchSize →
      (fun st : List SentRow × List SentRow × Nat =>
          if st.2.1 = [] then st.1 else flushAttempt oracle st.2.2 st.1 st.2.1)
        (rows.foldl (bufferStep batchSize oracle) (store, buf, k))
        = applyChunks oracle store (chunkify batchSize (buf ++ rows)) k := by
  intro rows
  induction rows with
  | nil =>
    intro store buf k hlen
    rw [List.foldl_nil, List.append_nil, chunkify]
    rw [dif_neg (by omega)]
    by_cases hbuf : buf = []
    · simp [hbuf, applyChunks]
    · simp [hbuf, applyChunks]
  | cons r rs ih =>
    intro store buf k hlen
    rw [List.foldl_cons]
    by_cases hfull : batchSize ≤ (buf ++ [r]).length
    · have hstep : bufferStep batchSize oracle (store, buf, k) r
          = (flushAttempt oracle k store (buf ++ [r]), [], k + 1) := by
        simp only [bufferStep]
        rw [if_pos hfull]
      rw [hstep, ih _ _ _ (by simp only [List.length_nil]; omega)]
      simp only [List.nil_append]
      have hlen' : (buf ++ [r]).length = batchSize := by
        simp only [List.length_append, List.length_singleton] at hfull ⊢
        omega
      have hassoc : buf ++ r :: rs = (buf ++ [r]) ++ rs := by simp
      rw [hassoc]
      conv_rhs => rw [chunkify]
      rw [dif_pos (by rw [List.length_append, hlen']; omega),
        List.take_left' hlen', List.drop_left' hlen']
      simp [applyChunks]
    · have hstep : bufferStep batchSize oracle (store, buf, k) r
          = (store, buf ++ [r], k) := by
        simp only [bufferStep]
        rw [if_neg hfull]
      rw [hstep, ih _ _ _ (by simp at hfull ⊢; omega)]
      have hassoc : buf ++ [r] ++ rs = buf ++ r :: rs := by simp
      rw [hassoc]

/-- `populate_db` equals the reference batch sequence over the chunked row
stream. -/
theorem populate_db_eq_applyChunks (batchSize : Nat) (oracle : Nat → Bool)
    (files : List (Nat × List (List String))) (store : List SentRow)
    (hb : 1 ≤ batchSize) :
    populate_db batchSize oracle files store
      = applyChunks oracle store
          (chunkify batchSize
            ((files.map (fun f => fileRows f.1 f.2 0 0 0)).flatten)) 0 := by
  unfold populate_db
  rw [populate_foldl_files]
  simpa using
    bufferFold_eq_applyChunks batchSize oracle hb
      ((files.map (fun f => fileRows f.1 f.2 0 0 0)).flatten) store [] 0
      (by simp only [List.length_nil]; omega)

/-- C9. The indexer's buffered writes equal attempting each batch of the row
stream exactly once, in order (`applyChunks`): when a flush fails — a database
error, modelled by the oracle — the store is left as it was (rollback), the
batch's rows are dropped for good (the buffer is cleared, nothing is retried),
and the remaining batches are still attempted; no flush failure aborts the
indexing pass. -/
theorem batch_flush_failure_nonfatal (batchSize : Nat) (oracle : Nat → Bool)
    (files : List (Nat × List (List String))) (store : List SentRow)
    (hb : 1 ≤ batchSize) :
    populate_db batchSize oracle files store
      = applyChunks oracle store
          (chunkify batchSize
            ((files.map (fun f => fileRows f.1 f.2 0 0 0)).flatten)) 0 :=
  populate_db_eq_applyChunks batchSize oracle files store hb

/-- Witness for C9: batch size 2 with the first flush failing. -/
theorem batch_flush_failure_nonfatal_witness :
    populate_db 2 (fun k => k == 0) [(0, doc8)] []
      = applyChunks (fun k => k == 0) []
          (chunkify 2 (([(0, doc8)].map (fun f => fileRows f.1 f.2 0 0 0)).flatten))
          0 :=
  batch_flush_failure_nonfatal 2 (fun k => k == 0) [(0, doc8)] [] (by decide)

/-! ### C4: re-indexing an already indexed document -/

/-- Chunks are non-empty and draw their rows from the chunked stream. -/
theorem chunkify_mem (batchSize : Nat) (rows : List SentRow) :
    ∀ c ∈ chunkify batchSize rows, c ≠ [] ∧ ∀ r ∈ c, r ∈ rows := by
  induction rows using chunkify.induct batchSize with
  | case1 rows h ih =>
    intro c hc
    rw [chunkify, dif_pos h] at hc
    rcases List.mem_cons.mp hc with rfl | hc2
    · refine ⟨?_, fun r hr => List.mem_of_mem_take hr⟩
      intro hnil
      have hl : (rows.take batchSize).length = batchSize := by
        rw [List.length_take]
        omega
      rw [hnil] at hl
      simp at hl
      omega
    · obtain ⟨hne, hmem⟩ := ih c hc2
      exact ⟨hne, fun r hr => List.mem_of_mem_drop (hmem r hr)⟩
  | case2 h =>
    intro c hc
    rw [chunkify, dif_neg h, if_pos rfl] at hc
    cases hc
  | case3 rows h1 h2 =>
    intro c hc
    rw [chunkify, dif_neg h1, if_neg h2] at hc
    rcases List.mem_singleton.mp hc with rfl
    exact ⟨h2, fun r hr => hr⟩

/-- Batches made of non-empty chunks whose keys are all present each hit the
uniqueness constraint and are dropped, leaving the store untouched. -/
theorem applyChunks_conflict_noop (oracle : Nat → Bool) (store : List SentRow) :
    ∀ (cs : List (List SentRow)) (k : Nat),
      (∀ c ∈ cs, c ≠ [] ∧ ∀ r ∈ c, sentKey r ∈ store.map sentKey) →
      applyChunks oracle store cs k = store := by
  intro cs
  induction cs with
  | nil => intro _ _; rfl
  | cons c cs ih =>
    intro k h
    obtain ⟨hne, hkeys⟩ := h c (List.mem_cons_self c cs)
    obtain ⟨r, hr⟩ := List.exists_mem_of_ne_nil c hne
    have hconf : insertConflict store c = true := by
      unfold insertConflict
      have hany : c.any (fun r => (store.map sentKey).contains (sentKey r)) = true :=
        List.any_eq_true.mpr ⟨r, hr, List.elem_iff.mpr (hkeys r hr)⟩
      rw [hany, Bool.true_or]
    have hflush : flushAttempt oracle k store c = store := by
      unfold flushAttempt
      rw [hconf, Bool.or_true, if_pos rfl]
    show applyChunks oracle (flushAttempt oracle k store c) cs (k + 1) = store
    rw [hflush]
    exact ih (k + 1) (fun c' hc' => h c' (List.mem_cons_of_mem c hc'))

/-- C4 amended: re-running the indexer over a store that already holds every
key of the document's rows leaves the sentence store unchanged, with no row
lost — not via insert-or-ignore (the `INSERT` statement has no conflict
handling) but because each batch then violates the uniqueness constraint
wholesale, fails, and is rolled back and dropped by the error handler. -/
theorem reindex_leaves_store_unchanged (batchSize fileIdx : Nat)
    (doc : List (List String)) (store : List SentRow)
    (hb : 1 ≤ batchSize)
    (hk : ∀ r ∈ fileRows fileIdx doc 0 0 0, sentKey r ∈ store.map sentKey) :
    populate_db batchSize (fun _ => false) [(fileIdx, doc)] store = store := by
  rw [populate_db_eq_applyChunks _ _ _ _ hb]
  apply applyChunks_conflict_noop
  intro c hc
  have hrows : ([(fileIdx, doc)].map (fun f => fileRows f.1 f.2 0 0 0)).flatten
      = fileRows fileIdx doc 0 0 0 := by simp
  rw [hrows] at hc
  obtain ⟨hne, hmem⟩ := chunkify_mem batchSize _ c hc
  exact ⟨hne, fun r hr => hk r (hmem r hr)⟩

/-- Witness for C4's amended theorem: re-indexing `doc8` over its own rows. -/
theorem reindex_leaves_store_unchanged_witness :
    (∀ r ∈ fileRows 0 doc8 0 0 0, sentKey r ∈ (fileRows 0 doc8 0 0 0).map sentKey)
      ∧ populate_db 1000 (fun _ => false) [(0, doc8)] (fileRows 0 doc8 0 0 0)
          = fileRows 0 doc8 0 0 0 :=
  ⟨by decide,
    reindex_leaves_store_unchanged 1000 0 doc8 (fileRows 0 doc8 0 0 0)
      (by decide) (by decide)⟩

/-! ### C2 (continued): marker preservation under a safe walk -/

/-- From any marker-safe state the walk succeeds and its output carries
exactly the sentinel entries of the remaining document, in order. -/
theorem markers_preserved_aux (runMap : RunMap) :
    ∀ (fuel : Nat) (doc : List (List String)) (lineNum sentNum : Nat),
      markerSafeFuel runMap fuel doc lineNum sentNum = true →
      ∃ out, removeWalkFuel runMap fuel doc lineNum sentNum = some out
        ∧ out.filter (fun s => s == STOP_SENTINEL)
          = doc.filter (fun s => s == STOP_SENTINEL) := by
  intro fuel
  induction fuel with
  | zero => intro doc l c h; cases h
  | succ fuel ih =>
    intro doc lineNum sentNum h
    match doc with
    | [] => exact ⟨[], rfl, rfl⟩
    | s :: rest =>
      by_cases hs : s = STOP_SENTINEL
      · simp only [markerSafeFuel, if_pos hs] at h
        obtain ⟨out, hw, hf⟩ := ih rest (lineNum + 1) 0 h
        refine ⟨s :: out, ?_, ?_⟩
        · simp [removeWalkFuel, hs, hw]
        · simp [List.filter_cons, hs, hf]
      · cases hm : runMap (lineNum, sentNum) with
        | none =>
          simp only [markerSafeFuel, if_neg hs, hm] at h
          obtain ⟨out, hw, hf⟩ := ih rest lineNum (sentNum + 1) h
          refine ⟨s :: out, ?_, ?_⟩
          · simp [removeWalkFuel, hs, hm, hw]
          · simp [List.filter_cons, hs, hf]
        | some pr =>
          obtain ⟨expectedHash, runLength⟩ := pr
          simp only [markerSafeFuel, if_neg hs, hm] at h
          by_cases hov : rest.length + 1 < runLength
          · rw [if_pos hov] at h; cases h
          · rw [if_neg hov] at h
            by_cases h0 : runLength = 0
            · rw [if_pos h0] at h; cases h
            · rw [if_neg h0] at h
              obtain ⟨len', rfl⟩ : ∃ l', runLength = l' + 1 :=
                ⟨runLength - 1, by omega⟩
              rw [Bool.and_eq_true] at h
              obtain ⟨hnc, hrec⟩ := h
              have hdrop : len' + 1 - 1 = len' := by omega
              rw [hdrop] at hrec
              obtain ⟨out, hw, hf⟩ :=
                ih (rest.drop len') lineNum (sentNum + (len' + 1)) hrec
              refine ⟨out, ?_, ?_⟩
              · simp [removeWalkFuel, hs, hm, hov, hdrop, hw]
              · have hnotin : STOP_SENTINEL ∉ rest.take len' := by
                  intro hmem
                  have : ((s :: rest).take (len' + 1)).contains STOP_SENTINEL
                      = true := by
                    simp only [List.take_succ_cons]
                    exact List.elem_iff.mpr (List.mem_cons_of_mem s hmem)
                  rw [this] at hnc
                  cases hnc
                have htake :
                    (rest.take len').filter (fun t => t == STOP_SENTINEL)
                      = [] := by
                  rw [List.filter_eq_nil_iff]
                  intro a ha hpa
                  rw [beq_iff_eq] at hpa
                  exact hnotin (hpa ▸ ha)
                have hsplit : rest = rest.take len' ++ rest.drop len' :=
                  (List.take_append_drop len' rest).symm
                calc out.filter (fun t => t == STOP_SENTINEL)
                    = (rest.drop len').filter (fun t => t == STOP_SENTINEL) := hf
                  _ = (rest.take len').filter (fun t => t == STOP_SENTINEL)
                      ++ (rest.drop len').filter (fun t => t == STOP_SENTINEL) := by
                      rw [htake, List.nil_append]
                  _ = rest.filter (fun t => t == STOP_SENTINEL) := by
                      rw [← List.filter_append, ← hsplit]
                  _ = (s :: rest).filter (fun t => t == STOP_SENTINEL) := by
                      simp [List.filter_cons, hs]

/-- C2 amended: when the walk is marker-safe — every matched run has positive
length, stays inside the document, and its skipped slice contains no boundary
marker — the remover succeeds and the cleaned document contains exactly the
same boundary markers as the input, in the same order. (Without these
conditions markers are lost: a run overrunning the end discards the rest of
the document, and a skipped slice removes any markers inside it, even on hash
mismatch.) -/
theorem markers_preserved_when_safe (runMap : RunMap) (doc : List (List String))
    (hsafe : markerSafe runMap doc = true) :
    ∃ out, removeWalk runMap doc 0 0 = some out
      ∧ out.filter (fun s => s == STOP_SENTINEL)
        = doc.filter (fun s => s == STOP_SENTINEL) :=
  markers_preserved_aux runMap (doc.length + 1) doc 0 0 hsafe

/-- Witness for C2's amended theorem: a document whose removable run sits next
to a marker, which survives the removal. -/
theorem markers_preserved_witness :
    markerSafe c2okmap c2okdoc = true
      ∧ ∃ out, removeWalk c2okmap c2okdoc 0 0 = some out
          ∧ out.filter (fun s => s == STOP_SENTINEL)
            = c2okdoc.filter (fun s => s == STOP_SENTINEL) :=
  ⟨by decide, markers_preserved_when_safe c2okmap c2okdoc (by decide)⟩

/-! ### C6: the greedy scan emits exactly the maximal runs -/

/-- The scan equals the contiguity partition filtered by the threshold. -/
theorem scanAux_eq_chunksAux (threshold : Nat) :
    ∀ (rest : List Occ) (prev : Occ) (run : List Occ),
      scanAux threshold rest prev run
        = ((chunksAux rest prev run).filter
            (fun c => threshold ≤ c.length)).map mkRun := by
  intro rest
  induction rest with
  | nil =>
    intro prev run
    by_cases h : threshold ≤ run.length <;> simp [scanAux, chunksAux, h]
  | cons row rest ih =>
    intro prev run
    by_cases hc : contig prev row
    · simp [scanAux, chunksAux, hc, ih]
    · by_cases h : threshold ≤ run.length <;>
        simp [scanAux, chunksAux, hc, h, ih]

/-- The per-hash scan emits exactly the maximal contiguous runs of length at
least `threshold`. -/
theorem detectRuns_eq_maximalRuns (threshold : Nat) (occs : List Occ) :
    detectRuns threshold occs = maximalRuns threshold occs := by
  cases occs with
  | nil => rfl
  | cons row rest =>
    simp [detectRuns, maximalRuns, chunks, scanAux_eq_chunksAux]

/-- The contiguity partition concatenates back to the stream. -/
theorem chunksAux_flatten :
    ∀ (rest : List Occ) (prev : Occ) (cur : List Occ),
      (chunksAux rest prev cur).flatten = cur ++ rest := by
  intro rest
  induction rest with
  | nil => intro prev cur; simp [chunksAux]
  | cons row rest ih =>
    intro prev cur
    by_cases hc : contig prev row <;> simp [chunksAux, hc, ih]

/-- `chunks` concatenates back to the stream. -/
theorem chunks_flatten (occs : List Occ) : (chunks occs).flatten = occs := by
  cases occs with
  | nil => rfl
  | cons row rest => simp [chunks, chunksAux_flatten]

/-- Every chunk is non-empty and internally contiguous. -/
theorem chunksAux_nonempty_chain :
    ∀ (rest : List Occ) (prev : Occ) (cur : List Occ),
      cur.getLast? = some prev → cur.Chain' contig →
      ∀ c ∈ chunksAux rest prev cur, c ≠ [] ∧ c.Chain' contig := by
  intro rest
  induction rest with
  | nil =>
    intro prev cur hlast hchain c hc
    simp only [chunksAux, List.mem_singleton] at hc
    subst hc
    exact ⟨fun h => by simp [h] at hlast, hchain⟩
  | cons row rest ih =>
    intro prev cur hlast hchain c hc
    by_cases hcg : contig prev row
    · simp only [chunksAux, if_pos hcg] at hc
      refine ih row (cur ++ [row]) (List.getLast?_concat _) ?_ c hc
      rw [List.chain'_append]
      refine ⟨hchain, List.chain'_singleton row, ?_⟩
      intro x hx y hy
      rw [hlast] at hx
      rw [List.head?_cons] at hy
      cases hx
      cases hy
      exact hcg
    · simp only [chunksAux, if_neg hcg, List.mem_cons] at hc
      rcases hc with rfl | hc2
      · exact ⟨fun h => by simp [h] at hlast, hchain⟩
      · exact ih row [row] rfl (List.chain'_singleton row) c hc2

/-- Every chunk of `chunks` is non-empty and internally contiguous. -/
theorem chunks_nonempty_chain (occs : List Occ) :
    ∀ c ∈ chunks occs, c ≠ [] ∧ c.Chain' contig := by
  cases occs with
  | nil => intro c hc; cases hc
  | cons row rest =>
    exact chunksAux_nonempty_chain rest row [row] rfl (List.chain'_singleton row)

/-- Contiguity names the unique successor coordinate. -/
theorem contig_iff_succ (prev row : Occ) : contig prev row ↔ row = succOcc prev := by
  obtain ⟨pf, pl, ps⟩ := prev
  obtain ⟨rf, rl, rs⟩ := row
  simp [contig, succOcc, Prod.ext_iff]

/-- A contiguous chunk is an arithmetic block of coordinates. -/
theorem chain_block :
    ∀ (l : List Occ) (a : Occ), (a :: l).Chain' contig →
      a :: l = blockFrom a.1 a.2.1 a.2.2 (l.length + 1) := by
  intro l
  induction l with
  | nil => intro a _; rfl
  | cons b l ih =>
    intro a hch
    rw [List.chain'_cons] at hch
    obtain ⟨hab, hch2⟩ := hch
    have hb := (contig_iff_succ a b).mp hab
    have hrec := ih b hch2
    subst hb
    simp only [List.length_cons]
    rw [show blockFrom a.1 a.2.1 a.2.2 (l.length + 1 + 1)
        = (a.1, a.2.1, a.2.2) :: blockFrom a.1 a.2.1 (a.2.2 + 1) (l.length + 1)
      from rfl]
    rw [show ((a.1, a.2.1, a.2.2) : Occ) = a from rfl]
    rw [show blockFrom a.1 a.2.1 (a.2.2 + 1) (l.length + 1)
        = blockFrom (succOcc a).1 (succOcc a).2.1 (succOcc a).2.2 (l.length + 1)
      from rfl]
    rw [← hrec]

/-- Membership in an arithmetic block. -/
theorem mem_blockFrom :
    ∀ (len s : Nat) (x : Occ) (f l : Nat),
      x ∈ blockFrom f l s len
        ↔ x.1 = f ∧ x.2.1 = l ∧ s ≤ x.2.2 ∧ x.2.2 < s + len := by
  intro len
  induction len with
  | zero =>
    intro s x f l
    simp only [blockFrom, List.not_mem_nil, false_iff]
    omega
  | succ len ih =>
    intro s x f l
    obtain ⟨xf, xl, xs⟩ := x
    rw [show blockFrom f l s (len + 1)
        = (f, l, s) :: blockFrom f l (s + 1) len from rfl]
    simp only [List.mem_cons, ih, Prod.mk.injEq]
    omega

/-- Last element of an arithmetic block. -/
theorem blockFrom_getLast? :
    ∀ (len s f l : Nat),
      (blockFrom f l s (len + 1)).getLast? = some (f, l, s + len) := by
  intro len
  induction len with
  | zero => intro s f l; rfl
  | succ len ih =>
    intro s f l
    rw [show blockFrom f l s (len + 1 + 1)
        = (f, l, s) :: blockFrom f l (s + 1) (len + 1) from rfl]
    rw [show blockFrom f l (s + 1) (len + 1)
        = (f, l, s + 1) :: blockFrom f l (s + 1 + 1) len from rfl]
    rw [List.getLast?_cons_cons]
    rw [show ((f, l, s + 1) : Occ) :: blockFrom f l (s + 1 + 1) len
        = blockFrom f l (s + 1) (len + 1) from rfl]
    rw [ih]
    have harith : s + 1 + len = s + (len + 1) := by omega
    rw [harith]

/-- Nothing sits strictly between an occurrence and its successor. -/
theorem occLt_gap (a x : Occ) (h1 : occLt a x) (h2 : occLt x (succOcc a)) :
    False := by
  obtain ⟨af, al, as⟩ := a
  obtain ⟨xf, xl, xs⟩ := x
  simp [occLt, succOcc] at h1 h2
  omega

/-- In a pairwise-ordered list, everything relates to the last element. -/
theorem pairwise_getLast :
    ∀ (l : List Occ) (a : Occ), l.Pairwise occLt → l.getLast? = some a →
      ∀ x ∈ l, x = a ∨ occLt x a := by
  intro l
  induction l with
  | nil => intro a _ h; cases h
  | cons b l ih =>
    intro a hp hlast x hx
    cases l with
    | nil =>
      rw [List.getLast?_singleton] at hlast
      cases hlast
      rcases List.mem_singleton.mp hx with rfl
      exact Or.inl rfl
    | cons c l2 =>
      rw [List.getLast?_cons_cons] at hlast
      rw [List.pairwise_cons] at hp
      rcases List.mem_cons.mp hx with rfl | hx2
      · exact Or.inr (hp.1 a (List.mem_of_mem_getLast? hlast))
      · exact ih a hp.2 hlast x hx2

/-- `occLt` never goes from a coordinate to a lower sentence on the same line.
-/
theorem occLt_ge_false (f l s k : Nat)
    (h : occLt (f, l, s + k) (f, l, s)) : False := by
  simp only [occLt] at h
  omega

/-- `occLt` never goes from a coordinate to its predecessor. -/
theorem occLt_pred_false (f l s : Nat)
    (h : occLt (f, l, s) (f, l, s - 1)) : False := by
  simp only [occLt] at h
  omega

/-- Core maximality invariant of the contiguity partition: with the stream in
strictly ascending coordinate order, no chunk it emits can be extended at its
start or at its end by any occurrence of the stream. `pre` is the consumed
prefix, `c0 :: ctl` the open chunk, whose last element is `prev`. -/
theorem chunksAux_maximal :
    ∀ (rest : List Occ) (prev c0 : Occ) (ctl pre : List Occ),
      (c0 :: ctl).getLast? = some prev →
      (c0 :: ctl).Chain' contig →
      (pre ++ (c0 :: ctl) ++ rest).Pairwise occLt →
      (c0.2.2 = 0 ∨ (c0.1, c0.2.1, c0.2.2 - 1) ∉ pre) →
      ∀ c ∈ chunksAux rest prev (c0 :: ctl), ∀ hd, c.head? = some hd →
        (hd.2.2 = 0 ∨ (hd.1, hd.2.1, hd.2.2 - 1) ∉ pre ++ (c0 :: ctl) ++ rest)
          ∧ (hd.1, hd.2.1, hd.2.2 + c.length) ∉ pre ++ (c0 :: ctl) ++ rest := by
  intro rest
  induction rest with
  | nil =>
    intro prev c0 ctl pre hlast hchain hpw hpre c hc hd hhd
    simp only [chunksAux, List.mem_singleton] at hc
    subst hc
    rw [List.head?_cons] at hhd
    cases hhd
    have hblock := chain_block ctl c0 hchain
    have hpw1 := (List.pairwise_append.mp hpw).1
    have hpwPC := (List.pairwise_append.mp hpw1).2.2
    constructor
    · by_cases hs0 : c0.2.2 = 0
      · exact Or.inl hs0
      · refine Or.inr ?_
        intro hmem
        rcases List.mem_append.mp hmem with hmemPC | hmemR
        · rcases List.mem_append.mp hmemPC with hmemP | hmemC
          · rcases hpre with h0 | hnp
            · exact hs0 h0
            · exact hnp hmemP
          · rw [hblock] at hmemC
            simp only [mem_blockFrom] at hmemC
            omega
        · cases hmemR
    · intro hmem
      simp only [List.length_cons] at hmem
      rcases List.mem_append.mp hmem with hmemPC | hmemR
      · rcases List.mem_append.mp hmemPC with hmemP | hmemC
        · have h := hpwPC _ hmemP c0 (List.mem_cons_self _ _)
          exact occLt_ge_false c0.1 c0.2.1 c0.2.2 (ctl.length + 1) h
        · rw [hblock] at hmemC
          simp only [mem_blockFrom] at hmemC
          omega
      · cases hmemR
  | cons row rest2 ih =>
    intro prev c0 ctl pre hlast hchain hpw hpre c hc hd hhd
    by_cases hcg : contig prev row
    · simp only [chunksAux, if_pos hcg] at hc
      have hlast2 : (c0 :: (ctl ++ [row])).getLast? = some row :=
        List.getLast?_concat (c0 :: ctl)
      have hchain2 : (c0 :: (ctl ++ [row])).Chain' contig := by
        rw [show c0 :: (ctl ++ [row]) = (c0 :: ctl) ++ [row] from rfl,
          List.chain'_append]
        refine ⟨hchain, List.chain'_singleton row, ?_⟩
        intro x hx y hy
        rw [hlast] at hx
        rw [List.head?_cons] at hy
        cases hx
        cases hy
        exact hcg
      have hEq : pre ++ (c0 :: (ctl ++ [row])) ++ rest2
          = pre ++ (c0 :: ctl) ++ (row :: rest2) := by simp
      have hpw2 : (pre ++ (c0 :: (ctl ++ [row])) ++ rest2).Pairwise occLt := by
        rw [hEq]; exact hpw
      have hres := ih row c0 (ctl ++ [row]) pre hlast2 hchain2 hpw2 hpre c hc hd hhd
      rw [hEq] at hres
      exact hres
    · simp only [chunksAux, if_neg hcg, List.mem_cons] at hc
      have hblock := chain_block ctl c0 hchain
      have hlastco : prev = (c0.1, c0.2.1, c0.2.2 + ctl.length) := by
        rw [hblock, blockFrom_getLast?] at hlast
        exact (Option.some.inj hlast).symm
      have hpwApp := List.pairwise_append.mp hpw
      have hpwPCfull := hpwApp.1
      have hpwRest := hpwApp.2.1
      have hcrossRest := hpwApp.2.2
      have hpwInner := List.pairwise_append.mp hpwPCfull
      have hcrossPreCur := hpwInner.2.2
      rcases hc with rfl | hc2
      · rw [List.head?_cons] at hhd
        cases hhd
        constructor
        · by_cases hs0 : c0.2.2 = 0
          · exact Or.inl hs0
          · refine Or.inr ?_
            intro hmem
            rcases List.mem_append.mp hmem with hmemPC | hmemR
            · rcases List.mem_append.mp hmemPC with hmemP | hmemC
              · rcases hpre with h0 | hnp
                · exact hs0 h0
                · exact hnp hmemP
              · rw [hblock] at hmemC
                simp only [mem_blockFrom] at hmemC
                omega
            · have h := hcrossRest c0
                (List.mem_append_right _ (List.mem_cons_self _ _)) _ hmemR
              exact occLt_pred_false c0.1 c0.2.1 c0.2.2 h
        · intro hmem
          simp only [List.length_cons] at hmem
          rcases List.mem_append.mp hmem with hmemPC | hmemR
          · rcases List.mem_append.mp hmemPC with hmemP | hmemC
            · have h := hcrossPreCur _ hmemP c0 (List.mem_cons_self _ _)
              exact occLt_ge_false c0.1 c0.2.1 c0.2.2 (ctl.length + 1) h
            · rw [hblock] at hmemC
              simp only [mem_blockFrom] at hmemC
              omega
          · rcases List.mem_cons.mp hmemR with heq | hmemR2
            · apply hcg
              rw [contig_iff_succ, ← heq, hlastco]
              rfl
            · have hprevmem : prev ∈ c0 :: ctl := List.mem_of_mem_getLast? hlast
              have h1 : occLt prev row := hcrossRest prev
                (List.mem_append_right _ hprevmem) row (List.mem_cons_self _ _)
              have h2 := (List.pairwise_cons.mp hpwRest).1 _ hmemR2
              refine occLt_gap prev row h1 ?_
              rw [hlastco]
              exact h2
      · have hEq2 : (pre ++ (c0 :: ctl)) ++ [row] ++ rest2
            = pre ++ (c0 :: ctl) ++ (row :: rest2) := by simp
        have hpw4 : ((pre ++ (c0 :: ctl)) ++ [row] ++ rest2).Pairwise occLt := by
          rw [hEq2]; exact hpw
        have hpre4 : row.2.2 = 0
            ∨ (row.1, row.2.1, row.2.2 - 1) ∉ pre ++ (c0 :: ctl) := by
          by_cases hr0 : row.2.2 = 0
          · exact Or.inl hr0
          · refine Or.inr ?_
            intro hmem
            have hlastPC : (pre ++ (c0 :: ctl)).getLast? = some prev := by
              rw [List.getLast?_append_of_ne_nil pre (by simp)]
              exact hlast
            have hsucc : succOcc (row.1, row.2.1, row.2.2 - 1) = row := by
              obtain ⟨rf, rl, rs⟩ := row
              have hr : rs ≠ 0 := hr0
              simp [succOcc]
              omega
            rcases pairwise_getLast _ prev hpwPCfull hlastPC _ hmem with hep | hlt
            · apply hcg
              rw [contig_iff_succ, ← hep, hsucc]
            · have hprevrow : occLt prev row := hcrossRest prev
                (List.mem_append_right _ (List.mem_of_mem_getLast? hlast)) row
                (List.mem_cons_self _ _)
              refine occLt_gap (row.1, row.2.1, row.2.2 - 1) prev hlt ?_
              rw [hsucc]
              exact hprevrow
        have hres := ih row row [] (pre ++ (c0 :: ctl)) rfl
          (List.chain'_singleton row) hpw4 hpre4 c hc2 hd hhd
        rw [hEq2] at hres
        exact hres

/-- C6. With the stream in strictly ascending coordinate order (as delivered
by `ORDER BY file_num, line_num, sent_num` over coordinates unique in the
store) and a positive threshold, the greedy scan emits exactly the maximal
contiguous runs of length at least the threshold: the emitted list equals the
contiguity partition filtered by length — the partition concatenates back to
the stream and each of its blocks is internally contiguous, so two adjacent
occurrences satisfying the contiguity condition are never split across two
emitted runs, and the final open run at end of stream is closed and evaluated
the same way — and no emitted run can be extended: the coordinate immediately
preceding its start and the coordinate immediately following its end occur
nowhere in the stream. -/
theorem detector_emits_maximal_runs (threshold : Nat) (occs : List Occ)
    (_ht : 1 ≤ threshold) (hsorted : occs.Pairwise occLt) :
    detectRuns threshold occs = maximalRuns threshold occs
      ∧ (chunks occs).flatten = occs
      ∧ (∀ c ∈ chunks occs, c ≠ [] ∧ c.Chain' contig)
      ∧ ∀ f l s len, (f, l, s, len) ∈ detectRuns threshold occs →
          (s = 0 ∨ (f, l, s - 1) ∉ occs) ∧ (f, l, s + len) ∉ occs := by
  refine ⟨detectRuns_eq_maximalRuns threshold occs, chunks_flatten occs,
    chunks_nonempty_chain occs, ?_⟩
  intro f l s len hmem
  rw [detectRuns_eq_maximalRuns] at hmem
  unfold maximalRuns at hmem
  rw [List.mem_map] at hmem
  obtain ⟨c, hcf, hmk⟩ := hmem
  have hcchunks := List.mem_of_mem_filter hcf
  obtain ⟨hne, _hchain⟩ := chunks_nonempty_chain occs c hcchunks
  obtain ⟨hd, tl, rfl⟩ := List.exists_cons_of_ne_nil hne
  simp only [mkRun, List.headD_cons, List.length_cons, Prod.mk.injEq] at hmk
  obtain ⟨h1, h2, h3, h4⟩ := hmk
  subst h1
  subst h2
  subst h3
  subst h4
  cases occs with
  | nil => simp [chunks] at hcchunks
  | cons row rest =>
    simp only [chunks] at hcchunks
    have hmax := chunksAux_maximal rest row row [] []
      rfl (List.chain'_singleton row) hsorted
      (Or.inr (List.not_mem_nil _)) (hd :: tl) hcchunks hd rfl
    exact hmax

/-- Witness for C6 on a concrete stream: one 3-run and one detached
occurrence. -/
theorem detector_emits_maximal_runs_witness :
    c6occs.Pairwise occLt
      ∧ (detectRuns 3 c6occs = maximalRuns 3 c6occs
          ∧ (chunks c6occs).flatten = c6occs
          ∧ (∀ c ∈ chunks c6occs, c ≠ [] ∧ c.Chain' contig)
          ∧ ∀ f l s len, (f, l, s, len) ∈ detectRuns 3 c6occs →
              (s = 0 ∨ (f, l, s - 1) ∉ c6occs) ∧ (f, l, s + len) ∉ c6occs) :=
  ⟨by decide, detector_emits_maximal_runs 3 c6occs (by decide) (by decide)⟩
